import Mathlib

/-!
Shallow embedding of `parse_deep_link` from `src-tauri/src/deeplink.rs`
(hearth-desktop). Strings are modelled as `List Char`; the `HashMap` of
query parameters is modelled as an association list with replace-on-insert
semantics (`insertKV`), which matches `HashMap::insert` up to iteration
order (claims only mention lookups and key multiplicity, never order).
`urlencoding::decode` is modelled byte-exactly: UTF-8 encode, percent-decode
(invalid hex sequences pass through literally, as in the crate), then strict
UTF-8 re-validation; a validation failure is the crate's `Err`, which the
source turns into the empty string via `unwrap_or_default`.
-/

namespace Hearth

/-- Convert a Lean string literal to the `List Char` model of Rust strings. -/
def chars (s : String) : List Char := s.toList

/-- The Unicode `White_Space` property, which `str::trim` strips. -/
def isRustWhitespace (c : Char) : Bool :=
  let n := c.toNat
  (0x09 ≤ n && n ≤ 0x0D) || n = 0x20 || n = 0x85 || n = 0xA0 || n = 0x1680 ||
  (0x2000 ≤ n && n ≤ 0x200A) || n = 0x2028 || n = 0x2029 || n = 0x202F ||
  n = 0x205F || n = 0x3000

/-- `str::trim`: drop leading and trailing whitespace. -/
def rustTrim (l : List Char) : List Char :=
  ((l.dropWhile isRustWhitespace).reverse.dropWhile isRustWhitespace).reverse

/-- `str::starts_with` for a literal pattern. -/
def startsWithChars : List Char → List Char → Bool
  | [], _ => true
  | _ :: _, [] => false
  | p :: ps, s :: ss => if p = s then startsWithChars ps ss else false

/-- The scheme literal `"hearth://"` (9 ASCII characters). -/
def schemeChars : List Char := chars "hearth://"

def serverChars : List Char := chars "server"

def channelChars : List Char := chars "channel"

/-- Auxiliary for `split`: first piece and the remaining pieces. -/
def splitOnCharNE (c : Char) : List Char → List Char × List (List Char)
  | [] => ([], [])
  | x :: xs =>
    let r := splitOnCharNE c xs
    if x = c then ([], r.1 :: r.2) else (x :: r.1, r.2)

/-- Rust `str::split(c)`: always returns at least one piece. -/
def splitOnChar (c : Char) (l : List Char) : List (List Char) :=
  (splitOnCharNE c l).1 :: (splitOnCharNE c l).2

/-- Rust `[&str]::join(c)` for a one-character separator. -/
def joinWith (c : Char) : List (List Char) → List Char
  | [] => []
  | [x] => x
  | x :: y :: ys => x ++ c :: joinWith c (y :: ys)

/-- Rust `str::split_once(c)`: split at the first occurrence of `c`. -/
def splitOnce (c : Char) : List Char → Option (List Char × List Char)
  | [] => none
  | x :: xs =>
    if x = c then some ([], xs)
    else (splitOnce c xs).map (fun p => (x :: p.1, p.2))

/-- Value of a hex digit byte (`0-9`, `A-F`, `a-f`), as in `urlencoding`. -/
def hexVal (b : Nat) : Option Nat :=
  if 0x30 ≤ b && b ≤ 0x39 then some (b - 0x30)
  else if 0x41 ≤ b && b ≤ 0x46 then some (b - 0x37)
  else if 0x61 ≤ b && b ≤ 0x66 then some (b - 0x57)
  else none

/-- UTF-8 encoding of one scalar value, as a list of byte values. -/
def utf8EncodeChar (c : Char) : List Nat :=
  let n := c.toNat
  if n < 0x80 then [n]
  else if n < 0x800 then [0xC0 + n / 0x40, 0x80 + n % 0x40]
  else if n < 0x10000 then
    [0xE0 + n / 0x1000, 0x80 + n / 0x40 % 0x40, 0x80 + n % 0x40]
  else
    [0xF0 + n / 0x40000, 0x80 + n / 0x1000 % 0x40, 0x80 + n / 0x40 % 0x40,
     0x80 + n % 0x40]

def utf8EncodeList (l : List Char) : List Nat := (l.map utf8EncodeChar).flatten

/-- `urlencoding::decode_binary`, with fuel to make the recursion
structural (each step consumes at least one byte, so fuel equal to the
length of the input is always enough and the fuel-exhausted branch is
unreachable): replace valid `%XX` with the byte; an invalid sequence
leaves `%` in place and continues scanning at the next byte. -/
def percentDecodeAux : Nat → List Nat → List Nat
  | _, [] => []
  | 0, l => l
  | fuel + 1, b :: rest =>
    if b = 37 then
      match rest with
      | a :: b2 :: rest2 =>
        match hexVal a, hexVal b2 with
        | some ha, some hb => (ha * 16 + hb) :: percentDecodeAux fuel rest2
        | _, _ => 37 :: percentDecodeAux fuel rest
      | _ => b :: percentDecodeAux fuel rest
    else b :: percentDecodeAux fuel rest

def percentDecodeBytes (l : List Nat) : List Nat := percentDecodeAux l.length l

/-- A UTF-8 continuation byte. -/
def isCont (b : Nat) : Bool := 0x80 ≤ b && b < 0xC0

/-- Allowed first continuation byte of a 3-byte sequence (no overlongs,
no surrogates). -/
def valid3First (b b1 : Nat) : Bool :=
  if b = 0xE0 then 0xA0 ≤ b1 && b1 < 0xC0
  else if b = 0xED then 0x80 ≤ b1 && b1 < 0xA0
  else isCont b1

/-- Allowed first continuation byte of a 4-byte sequence (no overlongs,
nothing above U+10FFFF). -/
def valid4First (b b1 : Nat) : Bool :=
  if b = 0xF0 then 0x90 ≤ b1 && b1 < 0xC0
  else if b = 0xF4 then 0x80 ≤ b1 && b1 < 0x90
  else isCont b1

/-- Strict UTF-8 decoding, as `String::from_utf8` validates it. -/
def utf8Decode : List Nat → Option (List Char)
  | [] => some []
  | b :: rest =>
    if b < 0x80 then (utf8Decode rest).map (fun cs => Char.ofNat b :: cs)
    else if b < 0xC2 then none
    else if b < 0xE0 then
      match rest with
      | b1 :: rest2 =>
        if isCont b1 then
          (utf8Decode rest2).map
            (fun cs => Char.ofNat ((b - 0xC0) * 0x40 + (b1 - 0x80)) :: cs)
        else none
      | [] => none
    else if b < 0xF0 then
      match rest with
      | b1 :: b2 :: rest3 =>
        if valid3First b b1 && isCont b2 then
          (utf8Decode rest3).map
            (fun cs =>
              Char.ofNat
                ((b - 0xE0) * 0x1000 + (b1 - 0x80) * 0x40 + (b2 - 0x80)) :: cs)
        else none
      | _ => none
    else if b < 0xF5 then
      match rest with
      | b1 :: b2 :: b3 :: rest4 =>
        if valid4First b b1 && isCont b2 && isCont b3 then
          (utf8Decode rest4).map
            (fun cs =>
              Char.ofNat
                ((b - 0xF0) * 0x40000 + (b1 - 0x80) * 0x1000 +
                   (b2 - 0x80) * 0x40 + (b3 - 0x80)) :: cs)
        else none
      | _ => none
    else none

/-- `urlencoding::decode`: percent-decode, then UTF-8-validate. `none` is
the crate's `Err` case (decoded bytes are not valid UTF-8). -/
def urlDecode (s : List Char) : Option (List Char) :=
  utf8Decode (percentDecodeBytes (utf8EncodeList s))

/-- `urlencoding::decode(s).unwrap_or_default()`: a failed decode becomes
the empty string. -/
def urlDecodeD (s : List Char) : List Char := (urlDecode s).getD []

/-- `HashMap::insert` on the association-list model: replace the value if
the key is present (keeping the old key), else append the new pair. -/
def insertKV : List (List Char × List Char) → List Char → List Char →
    List (List Char × List Char)
  | [], k, v => [(k, v)]
  | (k', v') :: rest, k, v =>
    if k' = k then (k', v) :: rest else (k', v') :: insertKV rest k v

/-- `HashMap::get` on the association-list model. -/
def lookupKV : List (List Char × List Char) → List Char → Option (List Char)
  | [], _ => none
  | (k', v) :: rest, k => if k' = k then some v else lookupKV rest k

/-- One iteration of the query loop: split the pair on the first `=`;
without an `=` the pair is skipped, otherwise key and value are
percent-decoded (failure becoming the empty string) and inserted. -/
def insertQueryPair (m : List (List Char × List Char)) (pair : List Char) :
    List (List Char × List Char) :=
  match splitOnce '=' pair with
  | some kv => insertKV m (urlDecodeD kv.1) (urlDecodeD kv.2)
  | none => m

/-- The query-parsing block of `parse_deep_link`: when pieces after the
first `?` exist, rejoin them with `?` and fold the pairs split on `&`. -/
def parseQuery (parts : List (List Char)) : List (List Char × List Char) :=
  if parts.isEmpty then []
  else (splitOnChar '&' (joinWith '?' parts)).foldl insertQueryPair []

/-- The parsed deep link data (`DeepLinkPayload` in `deeplink.rs`). -/
structure DeepLinkPayload where
  action : List Char
  target : Option (List Char)
  params : List (List Char × List Char)
deriving DecidableEq, Repr

/-- `parse_deep_link` from `deeplink.rs`, line for line: trim, check the
`hearth://` prefix, drop 9 characters, split path from query at the first
`?`, parse query pairs, split the path on `/` discarding empty segments,
require an action segment, and apply the `server/:id/:channel` rule. -/
def parse_deep_link (url : List Char) : Option DeepLinkPayload :=
  let url := rustTrim url
  if startsWithChars schemeChars url then
    let path := url.drop 9
    let parts := splitOnChar '?' path
    let path_part := parts.headD []
    let parts := parts.tail
    let params := parseQuery parts
    let segments := (splitOnChar '/' path_part).filter (fun s => !s.isEmpty)
    match segments with
    | [] => none
    | action :: segTail =>
      let params :=
        match segTail with
        | _ :: ch :: _ =>
          if action = serverChars then insertKV params channelChars ch
          else params
        | _ => params
      some { action := action, target := segTail.head?, params := params }
  else none

/-! Projections naming the intermediate values of `parse_deep_link`,
used to state the claims. Each is definitionally the corresponding
`let`-bound value in the function body. -/

def pathOf (url : List Char) : List Char := (rustTrim url).drop 9

def pathPartOf (url : List Char) : List Char :=
  (splitOnChar '?' (pathOf url)).headD []

def queryRestOf (url : List Char) : List (List Char) :=
  (splitOnChar '?' (pathOf url)).tail

def queryStringOf (url : List Char) : List Char :=
  joinWith '?' (queryRestOf url)

def segmentsOf (url : List Char) : List (List Char) :=
  (splitOnChar '/' (pathPartOf url)).filter (fun s => !s.isEmpty)

def decodeKV (kv : List Char × List Char) : List Char × List Char :=
  (urlDecodeD kv.1, urlDecodeD kv.2)

def decodePairsList (ps : List (List Char)) : List (List Char × List Char) :=
  (ps.filterMap (splitOnce '=')).map decodeKV

/-- The query pairs of a URL, in order, after decoding: exactly the pairs
the query loop inserts. -/
def decodedQueryPairsOf (url : List Char) : List (List Char × List Char) :=
  decodePairsList (splitOnChar '&' (queryStringOf url))

def keysOf (m : List (List Char × List Char)) : List (List Char) :=
  m.map Prod.fst

/-- The tail of `parse_deep_link` once the path part and the query string
have been separated: used to state that everything after the first `?`
(with later `?` characters preserved) is what the query loop consumes. -/
def parseFromParts (path_part query : List Char) : Option DeepLinkPayload :=
  let params := (splitOnChar '&' query).foldl insertQueryPair []
  match (splitOnChar '/' path_part).filter (fun s => !s.isEmpty) with
  | [] => none
  | action :: segTail =>
    let params :=
      match segTail with
      | _ :: ch :: _ =>
        if action = serverChars then insertKV params channelChars ch
        else params
      | _ => params
    some { action := action, target := segTail.head?, params := params }

/-- Value of the last pair with key `k`, if any. -/
def lastValOf (k : List Char) :
    List (List Char × List Char) → Option (List Char)
  | [] => none
  | p :: rest =>
    match lastValOf k rest with
    | some v => some v
    | none => if p.1 = k then some p.2 else none

/-! ### Basic lemmas about the string helpers -/

theorem splitOnChar_cons (c x : Char) (xs : List Char) :
    splitOnChar c (x :: xs) =
      if x = c then [] :: splitOnChar c xs
      else (x :: (splitOnCharNE c xs).1) :: (splitOnCharNE c xs).2 := by
  simp only [splitOnChar, splitOnCharNE]
  split <;> rfl

theorem joinWith_cons_cons (c x : Char) (h : List Char) (t : List (List Char)) :
    joinWith c ((x :: h) :: t) = x :: joinWith c (h :: t) := by
  cases t with
  | nil => rfl
  | cons y ys => rfl

theorem joinWith_splitOnChar (c : Char) (l : List Char) :
    joinWith c (splitOnChar c l) = l := by
  induction l with
  | nil => rfl
  | cons x xs ih =>
    rw [splitOnChar_cons]
    split
    · rename_i hx
      subst hx
      show ([] : List Char) ++ x :: joinWith x (splitOnChar x xs) = x :: xs
      rw [List.nil_append, ih]
    · show joinWith c ((x :: (splitOnCharNE c xs).1) :: (splitOnCharNE c xs).2)
        = x :: xs
      rw [joinWith_cons_cons]
      show x :: joinWith c (splitOnChar c xs) = x :: xs
      rw [ih]

theorem splitOnCharNE_append (c : Char) (pre post : List Char)
    (h : c ∉ pre) :
    splitOnCharNE c (pre ++ c :: post) = (pre, splitOnChar c post) := by
  induction pre with
  | nil =>
    show splitOnCharNE c (c :: post) = ([], splitOnChar c post)
    simp [splitOnCharNE, splitOnChar]
  | cons x xs ih =>
    have hx : x ≠ c := fun hxc => h (hxc ▸ List.mem_cons_self x xs)
    have hxs : c ∉ xs := fun hm => h (List.mem_cons_of_mem x hm)
    show splitOnCharNE c (x :: (xs ++ c :: post)) = (x :: xs, splitOnChar c post)
    simp only [splitOnCharNE, ih hxs, if_neg hx]

/-! ### Lemmas about the association-list model of `HashMap` -/

theorem lookup_insertKV_self (m : List (List Char × List Char))
    (k v : List Char) : lookupKV (insertKV m k v) k = some v := by
  induction m with
  | nil => simp [insertKV, lookupKV]
  | cons p rest ih =>
    obtain ⟨k', v'⟩ := p
    by_cases hk : k' = k
    · simp [insertKV, lookupKV, hk]
    · simp [insertKV, lookupKV, hk, ih]

theorem lookup_insertKV_ne (m : List (List Char × List Char))
    (k v k2 : List Char) (h : k2 ≠ k) :
    lookupKV (insertKV m k v) k2 = lookupKV m k2 := by
  induction m with
  | nil =>
    have h2 : ¬ k = k2 := fun hh => h hh.symm
    simp [insertKV, lookupKV, h2]
  | cons p rest ih =>
    obtain ⟨k', v'⟩ := p
    by_cases hk : k' = k
    · subst hk
      have h2 : ¬ k' = k2 := fun hh => h hh.symm
      simp [insertKV, lookupKV, h2]
    · simp only [insertKV, if_neg hk]
      by_cases hk2 : k' = k2
      · simp [lookupKV, hk2]
      · simp [lookupKV, hk2, ih]

theorem mem_keys_insertKV (m : List (List Char × List Char))
    (k v a : List Char) :
    a ∈ keysOf (insertKV m k v) ↔ a ∈ keysOf m ∨ a = k := by
  induction m with
  | nil => simp [insertKV, keysOf]
  | cons p rest ih =>
    obtain ⟨k', v'⟩ := p
    by_cases hk : k' = k
    · subst hk
      simp [insertKV, keysOf, List.mem_cons]
      tauto
    · simp only [insertKV, if_neg hk, keysOf, List.map_cons, List.mem_cons]
      simp only [keysOf] at ih
      rw [ih]
      tauto

theorem nodup_keys_insertKV (m : List (List Char × List Char))
    (k v : List Char) (h : (keysOf m).Nodup) :
    (keysOf (insertKV m k v)).Nodup := by
  induction m with
  | nil => simp [insertKV, keysOf]
  | cons p rest ih =>
    obtain ⟨k', v'⟩ := p
    simp only [keysOf, List.map_cons, List.nodup_cons] at h
    by_cases hk : k' = k
    · subst hk
      simpa [insertKV, keysOf, List.nodup_cons] using h
    · simp only [insertKV, if_neg hk, keysOf, List.map_cons, List.nodup_cons]
      refine ⟨fun hmem => ?_, ih h.2⟩
      rcases (mem_keys_insertKV rest k v k').mp hmem with hin | heq
      · exact h.1 hin
      · exact hk heq

theorem lookup_mem_keys (m : List (List Char × List Char))
    (k v : List Char) (h : lookupKV m k = some v) : k ∈ keysOf m := by
  induction m with
  | nil => simp [lookupKV] at h
  | cons p rest ih =>
    obtain ⟨k', v'⟩ := p
    by_cases hk : k' = k
    · simp [keysOf, hk]
    · simp only [lookupKV, if_neg hk] at h
      simp [keysOf, List.mem_cons]
      right
      simpa [keysOf] using ih h

theorem countP_keys_of_nodup (l : List (List Char)) (k : List Char)
    (hnd : l.Nodup) (hmem : k ∈ l) :
    l.countP (fun a => a = k) = 1 := by
  induction l with
  | nil => cases hmem
  | cons a rest ih =>
    simp only [List.nodup_cons] at hnd
    rcases List.mem_cons.mp hmem with heq | hmem'
    · subst heq
      have hz : rest.countP (fun x => x = k) = 0 := by
        rw [List.countP_eq_zero]
        intro b hb
        simp only [decide_eq_true_eq]
        intro hbk
        exact hnd.1 (hbk ▸ hb)
      simp [List.countP_cons, hz]
    · have ha : ¬ (a = k) := fun hak => hnd.1 (by rw [hak]; exact hmem')
      simp [List.countP_cons, ha, ih hnd.2 hmem']

/-! ### Characterizing the query fold -/

theorem lookup_foldl_insertQueryPair (ps : List (List Char))
    (m0 : List (List Char × List Char)) (k : List Char) :
    lookupKV (ps.foldl insertQueryPair m0) k =
      match lastValOf k (decodePairsList ps) with
      | some v => some v
      | none => lookupKV m0 k := by
  induction ps generalizing m0 with
  | nil => simp [decodePairsList, lastValOf]
  | cons pr tl ih =>
    rw [List.foldl_cons, ih]
    cases hsp : splitOnce '=' pr with
    | none =>
      simp only [decodePairsList, List.filterMap_cons, hsp, insertQueryPair]
    | some kv =>
      simp only [decodePairsList, List.filterMap_cons, hsp, List.map_cons,
        insertQueryPair]
      cases hlast : lastValOf k ((tl.filterMap (splitOnce '=')).map decodeKV) with
      | some v =>
        simp [lastValOf, decodePairsList, hlast]
      | none =>
        simp only [lastValOf, decodePairsList, hlast, decodeKV]
        by_cases hk : urlDecodeD kv.1 = k
        · rw [if_pos hk, ← hk, lookup_insertKV_self]
        · rw [if_neg hk,
            lookup_insertKV_ne _ _ _ _ (fun hh => hk hh.symm)]

theorem nodup_keys_foldl (ps : List (List Char))
    (m0 : List (List Char × List Char)) (h : (keysOf m0).Nodup) :
    (keysOf (ps.foldl insertQueryPair m0)).Nodup := by
  induction ps generalizing m0 with
  | nil => exact h
  | cons pr tl ih =>
    rw [List.foldl_cons]
    apply ih
    unfold insertQueryPair
    cases splitOnce '=' pr with
    | none => exact h
    | some kv => exact nodup_keys_insertKV _ _ _ h

theorem parseQuery_eq (rest : List (List Char)) :
    parseQuery rest =
      (splitOnChar '&' (joinWith '?' rest)).foldl insertQueryPair [] := by
  cases rest with
  | nil => rfl
  | cons x xs => rfl

theorem parseQuery_lookup (rest : List (List Char)) (k : List Char) :
    lookupKV (parseQuery rest) k =
      lastValOf k (decodePairsList (splitOnChar '&' (joinWith '?' rest))) := by
  rw [parseQuery_eq, lookup_foldl_insertQueryPair]
  cases lastValOf k (decodePairsList (splitOnChar '&' (joinWith '?' rest))) with
  | none => rfl
  | some v => rfl

theorem parseQuery_nodup_keys (rest : List (List Char)) :
    (keysOf (parseQuery rest)).Nodup := by
  rw [parseQuery_eq]
  exact nodup_keys_foldl _ [] (by simp [keysOf])

/-! ### Characterizing `parse_deep_link` -/

theorem parse_deep_link_eq (url : List Char) :
    parse_deep_link url =
      if startsWithChars schemeChars (rustTrim url) then
        match segmentsOf url with
        | [] => none
        | action :: segTail =>
          some { action := action, target := segTail.head?,
                 params :=
                   match segTail with
                   | _ :: ch :: _ =>
                     if action = serverChars then
                       insertKV (parseQuery (queryRestOf url)) channelChars ch
                     else parseQuery (queryRestOf url)
                   | _ => parseQuery (queryRestOf url) }
      else none := rfl

theorem mem_segments_ne_nil (url : List Char) (s : List Char)
    (h : s ∈ segmentsOf url) : s ≠ [] := by
  unfold segmentsOf at h
  have h2 := (List.mem_filter.mp h).2
  cases s with
  | nil => simp at h2
  | cons a t => exact fun hh => nomatch hh

theorem parse_params_nodup_keys (url : List Char) (p : DeepLinkPayload)
    (h : parse_deep_link url = some p) : (keysOf p.params).Nodup := by
  rw [parse_deep_link_eq] at h
  split at h
  · split at h
    · exact absurd h (by simp)
    · rename_i action segTail heq
      injection h with h
      subst h
      cases segTail with
      | nil => exact parseQuery_nodup_keys _
      | cons a t =>
        cases t with
        | nil => exact parseQuery_nodup_keys _
        | cons ch t2 =>
          dsimp only
          split
          · exact nodup_keys_insertKV _ _ _ (parseQuery_nodup_keys _)
          · exact parseQuery_nodup_keys _
  · exact absurd h (by simp)

theorem parseFromParts_eq (url : List Char) :
    parseFromParts (pathPartOf url) (queryStringOf url) =
      match segmentsOf url with
      | [] => none
      | action :: segTail =>
        some { action := action, target := segTail.head?,
               params :=
                 match segTail with
                 | _ :: ch :: _ =>
                   if action = serverChars then
                     insertKV (parseQuery (queryRestOf url)) channelChars ch
                   else parseQuery (queryRestOf url)
                 | _ => parseQuery (queryRestOf url) } := by
  unfold parseFromParts queryStringOf
  rw [← parseQuery_eq]
  rfl

theorem parse_eq_parts (url : List Char) :
    parse_deep_link url =
      if startsWithChars schemeChars (rustTrim url) then
        parseFromParts (pathPartOf url) (queryStringOf url)
      else none := by
  rw [parse_deep_link_eq, parseFromParts_eq]

/-! ### The claims -/

/-- C1: for every input whose trimmed form does not start with the literal,
case-sensitive 9-character prefix `hearth://`, `parse_deep_link` returns
nothing; in particular `parse("http://chat/1")` and `parse("HEARTH://chat/1")`
return nothing. -/
theorem claim_C1_scheme_required :
    (∀ url : List Char,
        startsWithChars schemeChars (rustTrim url) = false →
        parse_deep_link url = none)
    ∧ parse_deep_link (chars "http://chat/1") = none
    ∧ parse_deep_link (chars "HEARTH://chat/1") = none := by
  refine ⟨fun url h => ?_, by decide, by decide⟩
  rw [parse_deep_link_eq, h]
  rfl

theorem claim_C1_witness : parse_deep_link (chars "notalink") = none :=
  claim_C1_scheme_required.1 (chars "notalink") (by decide)

/-- C4: when the scheme prefix matches but zero non-empty path segments
remain, `parse_deep_link` returns nothing; `parse("hearth://")` is nothing,
and extra slashes in the path collapse rather than producing segments. -/
theorem claim_C4_empty_segments :
    (∀ url : List Char,
        startsWithChars schemeChars (rustTrim url) = true →
        segmentsOf url = [] → parse_deep_link url = none)
    ∧ parse_deep_link (chars "hearth://") = none
    ∧ parse_deep_link (chars "hearth:///chat//user1/") =
        parse_deep_link (chars "hearth://chat/user1") := by
  refine ⟨fun url h1 h2 => ?_, by decide, by decide⟩
  rw [parse_deep_link_eq, h1, h2]
  rfl

theorem claim_C4_witness : parse_deep_link (chars "hearth:////") = none :=
  claim_C4_empty_segments.1 (chars "hearth:////") (by decide) (by decide)

/-- C8: whenever `parse_deep_link` returns a payload, its `action` field is
exactly the first non-empty path segment, character for character, and it is
never the empty string. -/
theorem claim_C8_action_verbatim :
    ∀ (url : List Char) (p : DeepLinkPayload),
      parse_deep_link url = some p →
      (segmentsOf url).head? = some p.action ∧ p.action ≠ [] := by
  intro url p hp
  rw [parse_deep_link_eq] at hp
  split at hp
  · split at hp
    · exact absurd hp (by simp)
    · rename_i action segTail heq
      injection hp with hp
      subst hp
      refine ⟨by rw [heq]; rfl, ?_⟩
      exact mem_segments_ne_nil url action
        (by rw [heq]; exact List.mem_cons_self action segTail)
  · exact absurd hp (by simp)

theorem claim_C8_witness :
    (segmentsOf (chars "hearth://chat/user123")).head? =
        some (DeepLinkPayload.mk (chars "chat") (some (chars "user123")) []).action
    ∧ (DeepLinkPayload.mk (chars "chat") (some (chars "user123")) []).action ≠ [] :=
  claim_C8_action_verbatim (chars "hearth://chat/user123")
    (DeepLinkPayload.mk (chars "chat") (some (chars "user123")) []) (by decide)

/-- C9: `parse_deep_link` is deterministic: two invocations on the same
string return equal payloads (equal action, target and params), there being
no hidden state in the embedding of the function. -/
theorem claim_C9_deterministic :
    ∀ (url : List Char) (p q : DeepLinkPayload),
      parse_deep_link url = some p → parse_deep_link url = some q →
      p.action = q.action ∧ p.target = q.target ∧ p.params = q.params := by
  intro url p q hp hq
  rw [hp] at hq
  injection hq with hq
  subst hq
  exact ⟨rfl, rfl, rfl⟩

theorem claim_C9_witness :
    (DeepLinkPayload.mk (chars "settings") none []).action =
        (DeepLinkPayload.mk (chars "settings") none []).action
    ∧ (DeepLinkPayload.mk (chars "settings") none []).target =
        (DeepLinkPayload.mk (chars "settings") none []).target
    ∧ (DeepLinkPayload.mk (chars "settings") none []).params =
        (DeepLinkPayload.mk (chars "settings") none []).params :=
  claim_C9_deterministic (chars "hearth://settings")
    (DeepLinkPayload.mk (chars "settings") none [])
    (DeepLinkPayload.mk (chars "settings") none []) (by decide) (by decide)

/-- C10: whenever `parse_deep_link` returns a payload, `target` is never
`some` of the empty string: empty path segments are discarded before the
second segment is taken. -/
theorem claim_C10_target_nonempty :
    ∀ (url : List Char) (p : DeepLinkPayload),
      parse_deep_link url = some p → p.target ≠ some [] := by
  intro url p hp
  rw [parse_deep_link_eq] at hp
  split at hp
  · split at hp
    · exact absurd hp (by simp)
    · rename_i action segTail heq
      injection hp with hp
      subst hp
      cases segTail with
      | nil => intro h; exact absurd h (by simp)
      | cons b t =>
        intro h
        have hb : b = [] := by simpa using h
        exact mem_segments_ne_nil url b
          (by rw [heq]
              exact List.mem_cons_of_mem action (List.mem_cons_self b t)) hb
  · exact absurd hp (by simp)

theorem claim_C10_witness :
    (DeepLinkPayload.mk (chars "room") (some (chars "abc")) []).target ≠
      some [] :=
  claim_C10_target_nonempty (chars "hearth://room/abc")
    (DeepLinkPayload.mk (chars "room") (some (chars "abc")) []) (by decide)

/-- C2: whenever the first non-empty path segment is exactly `server` and a
third non-empty segment exists, the returned params map `channel` to that
third segment (overriding any query-derived `channel` entry, since the
path-derived value is inserted last); the example URL yields action
`server`, target `server-456` and params `{channel: chan-789}`. -/
theorem claim_C2_server_channel :
    (∀ (url : List Char) (p : DeepLinkPayload) (ch : List Char),
        parse_deep_link url = some p →
        (segmentsOf url).head? = some serverChars →
        (segmentsOf url)[2]? = some ch →
        lookupKV p.params channelChars = some ch)
    ∧ parse_deep_link (chars "hearth://server/server-456/chan-789") =
        some { action := chars "server", target := some (chars "server-456"),
               params := [(chars "channel", chars "chan-789")] } := by
  refine ⟨fun url p ch hp hhead hidx => ?_, by decide⟩
  rw [parse_deep_link_eq] at hp
  split at hp
  · split at hp
    · exact absurd hp (by simp)
    · rename_i action segTail heq
      injection hp with hp
      subst hp
      rw [heq] at hhead hidx
      simp only [List.head?_cons, Option.some.injEq] at hhead
      subst hhead
      cases segTail with
      | nil => simp at hidx
      | cons a t =>
        cases t with
        | nil => simp at hidx
        | cons b t2 =>
          simp only [List.getElem?_cons_succ, List.getElem?_cons_zero,
            Option.some.injEq] at hidx
          subst hidx
          show lookupKV
            (if serverChars = serverChars then
              insertKV (parseQuery (queryRestOf url)) channelChars b
             else parseQuery (queryRestOf url)) channelChars = some b
          rw [if_pos rfl]
          exact lookup_insertKV_self _ _ _
  · exact absurd hp (by simp)

theorem claim_C2_witness :
    lookupKV (DeepLinkPayload.mk (chars "server") (some (chars "server-456"))
        [(chars "channel", chars "chan-789")]).params channelChars =
      some (chars "chan-789") :=
  claim_C2_server_channel.1 (chars "hearth://server/server-456/chan-789")
    (DeepLinkPayload.mk (chars "server") (some (chars "server-456"))
      [(chars "channel", chars "chan-789")])
    (chars "chan-789") (by decide) (by decide) (by decide)

/-- C6: a percent-decoding failure substitutes the empty string for the
failed component, the pair is still inserted, and a decode failure never
makes the whole parse return nothing when the scheme and action are valid;
`%FF` decodes to invalid UTF-8 and so fails. -/
theorem claim_C6_decode_failure_nonfatal :
    (∀ s : List Char, urlDecode s = none → urlDecodeD s = [])
    ∧ (∀ (m : List (List Char × List Char)) (pair : List Char)
          (kv : List Char × List Char), splitOnce '=' pair = some kv →
          insertQueryPair m pair =
            insertKV m (urlDecodeD kv.1) (urlDecodeD kv.2))
    ∧ (∀ url : List Char,
          startsWithChars schemeChars (rustTrim url) = true →
          segmentsOf url ≠ [] → (parse_deep_link url).isSome = true)
    ∧ urlDecode (chars "%FF") = none
    ∧ parse_deep_link (chars "hearth://chat/u?k=%FF") =
        some { action := chars "chat", target := some (chars "u"),
               params := [(chars "k", [])] } := by
  refine ⟨?_, ?_, ?_, by decide, by decide⟩
  · intro s h
    unfold urlDecodeD
    rw [h]
    rfl
  · intro m pair kv h
    unfold insertQueryPair
    rw [h]
  · intro url h1 h2
    rw [parse_deep_link_eq, h1, if_pos rfl]
    cases hseg : segmentsOf url with
    | nil => exact absurd hseg h2
    | cons a t => rfl

theorem claim_C6_witness : urlDecodeD (chars "%FF") = [] :=
  claim_C6_decode_failure_nonfatal.1 (chars "%FF") (by decide)

/-- C7: a query pair without `=` is skipped entirely (the loop body leaves
the map unchanged exactly when the pair contains no `=`), and the only
conditions making `parse_deep_link` return nothing are a wrong scheme
prefix or an empty segment list. -/
theorem claim_C7_only_failure_modes :
    (∀ url : List Char,
        parse_deep_link url = none ↔
          (startsWithChars schemeChars (rustTrim url) = false ∨
           segmentsOf url = []))
    ∧ (∀ (m : List (List Char × List Char)) (pair : List Char),
          splitOnce '=' pair = none → insertQueryPair m pair = m)
    ∧ (∀ pair : List Char, splitOnce '=' pair = none ↔ ('=') ∉ pair) := by
  refine ⟨?_, ?_, ?_⟩
  · intro url
    rw [parse_deep_link_eq]
    cases hb : startsWithChars schemeChars (rustTrim url)
    · simp
    · cases hseg : segmentsOf url with
      | nil => simp
      | cons a t => simp
  · intro m pair h
    unfold insertQueryPair
    rw [h]
  · intro pair
    induction pair with
    | nil => simp [splitOnce]
    | cons x xs ih =>
      by_cases hx : x = '='
      · subst hx
        simp [splitOnce]
      · simp [splitOnce, hx, ih, Option.map_eq_none']
        exact fun _ heq => hx heq.symm

theorem claim_C7_witness :
    insertQueryPair [] (chars "noequalshere") = [] :=
  claim_C7_only_failure_modes.2.1 [] (chars "noequalshere") (by decide)

/-- C3 counterexample: in
`hearth://server/a/b?channel=1&channel=2` the query key `channel` occurs
twice with last value `2`, yet the returned params bind `channel` to `b`
(the third path segment), so the last query occurrence does not win. -/
theorem claim_C3_counterexample :
    (parse_deep_link (chars "hearth://server/a/b?channel=1&channel=2")).map
        (fun p => lookupKV p.params (chars "channel")) =
      some (some (chars "b"))
    ∧ ¬ (parse_deep_link (chars "hearth://server/a/b?channel=1&channel=2")).map
          (fun p => lookupKV p.params (chars "channel")) =
        some (some (chars "2")) := by
  exact ⟨by decide, by decide⟩

/-- C3 amended: for every URL whose decoded query pairs contain a key more
than once, the returned params bind that key exactly once to the value of
its last occurrence — unless the key is `channel` while the first segment
is `server` and at least three segments exist, in which case the
path-derived third segment overrides the query value. -/
theorem claim_C3_last_wins_amended :
    ∀ (url : List Char) (p : DeepLinkPayload) (k v : List Char),
      parse_deep_link url = some p →
      2 ≤ (decodedQueryPairsOf url).countP (fun q => q.1 = k) →
      lastValOf k (decodedQueryPairsOf url) = some v →
      ¬ (k = channelChars ∧ (segmentsOf url).head? = some serverChars ∧
          3 ≤ (segmentsOf url).length) →
      lookupKV p.params k = some v ∧
        (keysOf p.params).countP (fun a => a = k) = 1 := by
  intro url p k v hp hdup hlast hexc
  have hp0 := hp
  have hQ : lookupKV (parseQuery (queryRestOf url)) k = some v := by
    rw [parseQuery_lookup]
    exact hlast
  rw [parse_deep_link_eq] at hp
  split at hp
  · split at hp
    · exact absurd hp (by simp)
    · rename_i action segTail heq
      injection hp with hp
      subst hp
      cases segTail with
      | nil =>
        exact ⟨hQ,
          countP_keys_of_nodup _ _ (parse_params_nodup_keys url _ hp0)
            (lookup_mem_keys _ _ _ hQ)⟩
      | cons a t =>
        cases t with
        | nil =>
          exact ⟨hQ,
            countP_keys_of_nodup _ _ (parse_params_nodup_keys url _ hp0)
              (lookup_mem_keys _ _ _ hQ)⟩
        | cons ch t2 =>
          have hmain : lookupKV
              (if action = serverChars then
                 insertKV (parseQuery (queryRestOf url)) channelChars ch
               else parseQuery (queryRestOf url)) k = some v := by
            by_cases ha : action = serverChars
            · rw [if_pos ha]
              have hk : k ≠ channelChars := by
                intro hkc
                apply hexc
                refine ⟨hkc, ?_, ?_⟩
                · rw [heq, ha]
                  rfl
                · rw [heq]
                  simp only [List.length_cons]
                  omega
              rw [lookup_insertKV_ne _ _ _ _ hk]
              exact hQ
            · rw [if_neg ha]
              exact hQ
          exact ⟨hmain,
            countP_keys_of_nodup _ _ (parse_params_nodup_keys url _ hp0)
              (lookup_mem_keys _ _ _ hmain)⟩
  · exact absurd hp (by simp)

theorem claim_C3_witness :
    lookupKV (DeepLinkPayload.mk (chars "x") (some (chars "y"))
        [(chars "a", chars "2")]).params (chars "a") = some (chars "2")
    ∧ (keysOf (DeepLinkPayload.mk (chars "x") (some (chars "y"))
        [(chars "a", chars "2")]).params).countP
          (fun a => a = chars "a") = 1 :=
  claim_C3_last_wins_amended (chars "hearth://x/y?a=1&a=2")
    (DeepLinkPayload.mk (chars "x") (some (chars "y"))
      [(chars "a", chars "2")])
    (chars "a") (chars "2") (by decide) (by decide) (by decide) (by decide)

/-- C5: all text from the first `?` onward is treated as the query string
with later `?` characters preserved (splitting on `?` and rejoining all but
the first piece with `?`), and only the text before the first `?` is the
path part; `parse_deep_link` factors through exactly these two pieces. -/
theorem claim_C5_query_from_first_qmark :
    (∀ pre post : List Char, ('?') ∉ pre →
        (splitOnChar '?' (pre ++ '?' :: post)).headD [] = pre ∧
        joinWith '?' ((splitOnChar '?' (pre ++ '?' :: post)).tail) = post)
    ∧ (∀ url : List Char,
        parse_deep_link url =
          if startsWithChars schemeChars (rustTrim url) then
            parseFromParts (pathPartOf url) (queryStringOf url)
          else none) := by
  constructor
  · intro pre post h
    have hs := splitOnCharNE_append '?' pre post h
    constructor
    · show (splitOnCharNE '?' (pre ++ '?' :: post)).1 = pre
      rw [hs]
    · show joinWith '?' (splitOnCharNE '?' (pre ++ '?' :: post)).2 = post
      rw [hs]
      exact joinWith_splitOnChar '?' post
  · exact parse_eq_parts

theorem claim_C5_witness :
    (splitOnChar '?' (chars "x/y" ++ '?' :: chars "a=1?b=2")).headD [] =
        chars "x/y"
    ∧ joinWith '?' ((splitOnChar '?'
          (chars "x/y" ++ '?' :: chars "a=1?b=2")).tail) = chars "a=1?b=2" :=
  claim_C5_query_from_first_qmark.1 (chars "x/y") (chars "a=1?b=2") (by decide)

end Hearth
